import Mathlib

/-!
Verification of the ahriman build orchestration core against its natural
language specification.

The Python sources are embedded shallowly:

* `ahriman/models/package.py` → `Ahriman.PackageDescription`, `Ahriman.Package`
  with `is_vcs`, `is_newer_than`, `actual_version`, `is_outdated`;
* `ahriman/core/tree.py` → `Ahriman.Leaf` (`items`, `is_dependency`,
  `is_root`) and `Ahriman.Tree.levels` (peeling loop, deferral pass, final
  sort);
* `ahriman/core/util.py` → `Ahriman.full_version`, `Ahriman.parse_version`;
* `ahriman/application/handlers/handler.py` → `Ahriman.Handler.call`,
  `Ahriman.Handler.execute`;
* `ahriman/web/views/status/package.py` → `Ahriman.PackageView.post`;
* the status watcher and `pyalpm.vercmp` are not part of the sources and are
  modelled from the specification (doc comments on those definitions say so).

Python strings are modelled by `String` with all character level operations
performed on `String.data : List Char`, so every definition evaluates inside
the kernel.  Python `dict`s appear only through their ordered key/value lists.
Functions that can raise return `Option`/`Except`.
-/

namespace Ahriman

/-- Per-artifact metadata of one produced sub-package
(`ahriman/models/package_description.py`): only the fields the verified code
reads (`depends`, `provides`, `build_date`). -/
structure PackageDescription where
  depends : List String
  provides : List String
  build_date : Option Int
deriving DecidableEq

/-- `ahriman.models.package.Package`: package base, full version and the map
of produced sub-packages (modelled as an association list in insertion
order).  The `remote` descriptor is never read by the verified functions and
is omitted. -/
structure Package where
  base : String
  version : String
  packages : List (String × PackageDescription)
deriving DecidableEq

/-- `Package.is_vcs`: the base looks like a VCS package when it ends with one
of the well-known VCS suffixes. -/
def Package.is_vcs (p : Package) : Bool :=
  ["-bzr", "-csv", "-darcs", "-git", "-hg", "-svn"].any fun suff =>
    suff.data.isSuffixOf p.base.data

/-- `Package.is_newer_than`: true when any sub-package with a known build
date was built after `timestamp`. -/
def Package.is_newer_than (p : Package) (timestamp : Int) : Bool :=
  p.packages.any fun pair =>
    match pair.2.build_date with
    | some build_date => decide (build_date > timestamp)
    | none => false

/-- `ahriman.core.tree.Leaf`: one package plus its externally resolved
dependency name set. -/
structure Leaf where
  package : Package
  dependencies : List String
deriving DecidableEq

/-- `Leaf.items`: names of all packages contained in this leaf
(`self.package.packages.keys()`). -/
def Leaf.items (self : Leaf) : List String :=
  self.package.packages.map Prod.fst

/-- `Leaf.is_dependency`: True when the package is a dependency of any other
package from the list (some listed leaf's dependency set intersects our
items). -/
def Leaf.is_dependency (self : Leaf) (packages : List Leaf) : Bool :=
  packages.any fun leaf => leaf.dependencies.any fun d => self.items.contains d

/-- `Leaf.is_root`: True when the leaf depends on no package from the list
(its dependency set intersects no listed leaf's items). -/
def Leaf.is_root (self : Leaf) (packages : List Leaf) : Bool :=
  packages.all fun leaf => !(self.dependencies.any fun d => leaf.items.contains d)

/-- `p` needs an artifact produced by `q`: some dependency name of `p` is an
item of `q`.  Propositional counterpart of the `Bool` intersection checks. -/
def DependsOn (p q : Leaf) : Prop :=
  ∃ d, d ∈ p.dependencies ∧ d ∈ q.items

instance (p q : Leaf) : Decidable (DependsOn p q) := by
  unfold DependsOn; infer_instance

namespace Tree

/-- The naive peeling loop of `Tree.levels` (`while unprocessed:` …): peel
all current roots as one level and recurse on the rest.  The Python loop
appends empty levels forever when no leaf is a root while leaves remain;
that divergence is represented by `none`.  Each successful step removes at
least one leaf, so `fuel = length` (see `peel`) always suffices. -/
def peelFuel : Nat → List Leaf → Option (List (List Leaf))
  | _, [] => some []
  | 0, _ :: _ => none
  | fuel + 1, u@(_ :: _) =>
    let roots := u.filter fun leaf => leaf.is_root u
    if roots.isEmpty then none
    else (peelFuel fuel (u.filter fun leaf => !(leaf.is_root u))).map
      fun rest => roots :: rest

/-- The peeling loop at sufficient fuel: `some levels` exactly when the
Python `while` loop terminates. -/
def peel (unprocessed : List Leaf) : Option (List (List Leaf)) :=
  peelFuel unprocessed.length unprocessed

/-- The lazily consumed `itertools.filterfalse` side of `partition` in
`Tree.levels`: `unsorted[next_num].extend(to_be_moved)` appends each moved
leaf to the next level before the predicate is evaluated on the following
leaves, so each leaf is tested against `next ++ acc` where `acc` is what has
been moved so far. -/
def movedGo (next : List Leaf) : List Leaf → List Leaf → List Leaf
  | [], acc => acc
  | leaf :: rest, acc =>
    if leaf.is_dependency (next ++ acc) then movedGo next rest acc
    else movedGo next rest (acc ++ [leaf])

/-- One step of the deferral pass, iterated over consecutive level pairs:
the kept side of `partition` is materialized eagerly against the original
next level, the moved side is appended lazily (`movedGo`). -/
def deferralGo (cur : List Leaf) : List (List Leaf) → List (List Leaf)
  | [] => [cur]
  | next :: rest =>
    (cur.filter fun leaf => leaf.is_dependency next) ::
      deferralGo (next ++ movedGo next cur []) rest

/-- The deferral pass of `Tree.levels` (`for current_num, current_level in
enumerate(unsorted[:-1])`). -/
def deferral : List (List Leaf) → List (List Leaf)
  | [] => []
  | level :: rest => deferralGo level rest

/-- The deferral rule in the form the specification describes it (with the
moved/kept criterion corrected to match the code): a leaf of the current
level stays exactly when it is required by something in the next level, and
the leaves not so required are appended to the next level — the moved side
computed eagerly against the unextended next level. -/
def deferralSpecGo (cur : List Leaf) : List (List Leaf) → List (List Leaf)
  | [] => [cur]
  | next :: rest =>
    (cur.filter fun leaf => leaf.is_dependency next) ::
      deferralSpecGo (next ++ cur.filter fun leaf => !(leaf.is_dependency next)) rest

/-- The whole deferral pass under the eager reading (see `deferralSpecGo`);
to be compared with `deferral`, the lazily-extending translation of the
source. -/
def deferralSpec : List (List Leaf) → List (List Leaf)
  | [] => []
  | level :: rest => deferralSpecGo level rest

/-- No leaf of `level` depends on (needs an artifact of) any leaf of
`later`. -/
def NoDepsOn (level later : List Leaf) : Prop :=
  ∀ p ∈ level, ∀ q ∈ later, ¬ DependsOn p q

/-- Stratification invariant of a list of levels: no leaf depends on a leaf
of its own level or of any later level. -/
def Strat : List (List Leaf) → Prop
  | [] => True
  | level :: rest => NoDepsOn level (level ++ rest.flatten) ∧ Strat rest

/-- CPython `sorted` compares strings by code points; `charListLt` is that
strict lexicographic order on the character lists. -/
def charListLt : List Char → List Char → Bool
  | [], [] => false
  | [], _ :: _ => true
  | _ :: _, [] => false
  | x :: xs, y :: ys =>
    if x.toNat < y.toNat then true
    else if y.toNat < x.toNat then false
    else charListLt xs ys

/-- The comparator of the final `sorted(..., key=comparator)`: non-strict
code point order on package bases. -/
def baseLe (p q : Package) : Prop :=
  charListLt q.base.data p.base.data = false

instance : DecidableRel baseLe := by
  unfold baseLe; infer_instance

/-- `Tree.levels` up to (but not including) the final projection to sorted
package lists: peeling, deferral and the `if level` filter, still at the
granularity of leaves. -/
def levelsLeaves (leaves : List Leaf) : Option (List (List Leaf)) :=
  (peel leaves).map fun unsorted =>
    (deferral unsorted).filter fun level => !level.isEmpty

/-- `Tree.levels`: the leaf levels projected to packages, each level sorted
by package base (a stable ascending sort, as CPython's `sorted`). -/
def levels (leaves : List Leaf) : Option (List (List Package)) :=
  (levelsLeaves leaves).map fun unsorted =>
    unsorted.map fun level => List.insertionSort baseLe (level.map Leaf.package)

end Tree

/-- `str.split(sep, maxsplit=1)` at a one-character separator, as the pair
around the first occurrence; `none` when the separator does not occur. -/
def splitFirst (c : Char) : List Char → Option (List Char × List Char)
  | [] => none
  | x :: xs =>
    if x = c then some ([], xs)
    else (splitFirst c xs).map fun pair => (x :: pair.1, pair.2)

/-- `str.rsplit(sep, maxsplit=1)` at a one-character separator, as the pair
around the last occurrence; `none` when the separator does not occur. -/
def rsplitLast (c : Char) (l : List Char) : Option (List Char × List Char) :=
  (splitFirst c l.reverse).map fun pair => (pair.2.reverse, pair.1.reverse)

/-- `ahriman.core.util.full_version`: `f"{epoch}:"` is prepended only when
`epoch` is truthy, i.e. present and non-empty. -/
def full_version (epoch : Option String) (pkgver pkgrel : String) : String :=
  (match epoch with
    | some e => if e = "" then "" else e ++ ":"
    | none => "") ++ pkgver ++ "-" ++ pkgrel

/-- `ahriman.core.util.parse_version`: epoch before the first `:` when one
occurs, then pkgver/pkgrel around the last `-`.  Python unpacks
`version.rsplit("-", maxsplit=1)` into two variables and raises
`ValueError` when there is no `-`; that failure is `none`. -/
def parse_version (version : String) : Option (Option String × String × String) :=
  let split :=
    match splitFirst ':' version.data with
    | some pair => ((some (String.mk pair.1) : Option String), pair.2)
    | none => (none, version.data)
  match rsplitLast '-' split.2 with
  | some pair => some (split.1, String.mk pair.1, String.mk pair.2)
  | none => none

/-- One alternating segment of an alpm version component: a run of digits
read as a number, or a run of letters. -/
inductive VerSeg where
  | num (n : Nat)
  | alpha (s : List Char)
deriving DecidableEq

/-- Modelled from the spec: tokenizer of `pyalpm.vercmp`'s component
comparison (the library itself is external to the sources).  A component is
cut into maximal runs of digits (compared numerically, per the spec "ordered
epoch/pkgver/pkgrel tuple comparison, never lexical string comparison") and
runs of letters; any other character only separates segments. -/
def verSegs : List Char → Option VerSeg → List VerSeg
  | [], none => []
  | [], some seg => [seg]
  | c :: rest, acc =>
    if c.isDigit then
      match acc with
      | some (.num n) => verSegs rest (some (.num (n * 10 + (c.toNat - 48))))
      | some (.alpha s) => .alpha s :: verSegs rest (some (.num (c.toNat - 48)))
      | none => verSegs rest (some (.num (c.toNat - 48)))
    else if c.isAlpha then
      match acc with
      | some (.alpha s) => verSegs rest (some (.alpha (s ++ [c])))
      | some (.num n) => .num n :: verSegs rest (some (.alpha [c]))
      | none => verSegs rest (some (.alpha [c]))
    else
      match acc with
      | some seg => seg :: verSegs rest none
      | none => verSegs rest none

/-- Modelled from the spec: comparison of two single segments; numbers
compare numerically and any number is newer than any alphabetic segment. -/
def segCmp : VerSeg → VerSeg → Int
  | .num a, .num b => if a < b then -1 else if b < a then 1 else 0
  | .num _, .alpha _ => 1
  | .alpha _, .num _ => -1
  | .alpha a, .alpha b =>
    if Tree.charListLt a b then -1 else if Tree.charListLt b a then 1 else 0

/-- Modelled from the spec: segment lists compare pointwise; when one side
runs out, a remaining numeric segment means newer and a remaining
alphabetic one means older. -/
def segsCmp : List VerSeg → List VerSeg → Int
  | [], [] => 0
  | [], .num _ :: _ => -1
  | [], .alpha _ :: _ => 1
  | .num _ :: _, [] => 1
  | .alpha _ :: _, [] => -1
  | a :: as, b :: bs => if segCmp a b = 0 then segsCmp as bs else segCmp a b

/-- Modelled from the spec: `pyalpm.vercmp` (external library, not in the
sources).  Negative when the first version is older, positive when newer, by
ordered comparison of the (epoch, pkgver, pkgrel) tuple — per the spec,
"version comparison uses ordered epoch/pkgver/pkgrel tuple comparison,
never lexical string comparison".  A missing epoch counts as `0`. -/
def vercmp (a b : String) : Int :=
  let evr : String → List Char × List Char × List Char := fun v =>
    let split :=
      match splitFirst ':' v.data with
      | some pair => pair
      | none => (['0'], v.data)
    match rsplitLast '-' split.2 with
    | some pair => (split.1, pair.1, pair.2)
    | none => (split.1, split.2, [])
  let x := evr a
  let y := evr b
  let cEpoch := segsCmp (verSegs x.1 none) (verSegs y.1 none)
  let cVer := segsCmp (verSegs x.2.1 none) (verSegs y.2.1 none)
  let cRel := segsCmp (verSegs x.2.2 none) (verSegs y.2.2 none)
  if cEpoch ≠ 0 then cEpoch else if cVer ≠ 0 then cVer else cRel

/-- `Package.actual_version`: for a non-VCS package the stored version; for a
VCS package the result of the external source refresh and
`makepkg --printsrcinfo` recomputation, which the shallow embedding receives
as the oracle argument `recomputed`. -/
def Package.actual_version (p : Package) (recomputed : String) : String :=
  if p.is_vcs then recomputed else p.version

/-- `Package.is_outdated`: unless the local package was built after
`now - vcs_allowed_age` (and `calculate_version` is set), the remote version
is expanded through `actual_version`; the package is out-of-date when
`vercmp` finds the local version older.  `now` stands for
`utcnow().timestamp()` and `recomputed` for the external VCS version
recomputation (see `Package.actual_version`). -/
def Package.is_outdated (self remote : Package) (now : Int)
    (vcs_allowed_age : Int) (calculate_version : Bool)
    (recomputed : String) : Bool :=
  let min_vcs_build_date := now - vcs_allowed_age
  let remote_version :=
    if calculate_version && !(self.is_newer_than min_vcs_build_date) then
      remote.actual_version recomputed
    else remote.version
  decide (vercmp self.version remote_version < 0)

/-- `ahriman.models.build_status.BuildStatusEnum`. -/
inductive BuildStatusEnum where
  | Unknown
  | Pending
  | Building
  | Failed
  | Success
deriving DecidableEq

/-- The string constructor `BuildStatusEnum(value)`: the enum values are
`"unknown"`, `"pending"`, `"building"`, `"failed"`, `"success"`; any other
string raises, which is `none`. -/
def BuildStatusEnum.fromValue (value : String) : Option BuildStatusEnum :=
  if value = "unknown" then some .Unknown
  else if value = "pending" then some .Pending
  else if value = "building" then some .Building
  else if value = "failed" then some .Failed
  else if value = "success" then some .Success
  else none

/-- `ahriman.models.build_status.BuildStatus`: a status value and the
timestamp the record was written at. -/
structure BuildStatus where
  status : BuildStatusEnum
  timestamp : Int
deriving DecidableEq

/-- The `UnknownPackage` error of `ahriman.core.exceptions`, raised by the
status watcher for an unknown package base. -/
inductive WatcherError where
  | unknownPackage (package_base : String)
deriving DecidableEq

/-- The status registry state: the watcher's map from package base to the
package snapshot and its last build status, modelled as an association list
in insertion order. -/
abbrev WatcherState : Type :=
  List (String × Package × BuildStatus)

/-- Modelled from the spec: the status watcher's `update` operation — the
watcher class itself is not among the sources, only its HTTP caller is.
Per §4.4, `update` on an unknown base without package data supplied fails
with an "unknown package" error rather than silently creating a phantom
entry, while supplying package data explicitly gives upsert semantics. -/
def watcherUpdate (state : WatcherState) (package_base : String)
    (status : BuildStatusEnum) (package : Option Package) (now : Int) :
    Except WatcherError WatcherState :=
  match package with
  | some p =>
    if (state.filter fun entry => entry.1 = package_base).isEmpty then
      .ok (state ++ [(package_base, p, ⟨status, now⟩)])
    else
      .ok (state.map fun entry =>
        if entry.1 = package_base then (entry.1, p, ⟨status, now⟩) else entry)
  | none =>
    if (state.filter fun entry => entry.1 = package_base).isEmpty then
      .error (.unknownPackage package_base)
    else
      .ok (state.map fun entry =>
        if entry.1 = package_base then (entry.1, entry.2.1, ⟨status, now⟩) else entry)

/-- HTTP outcomes of `PackageView.post`: 204 No Content on success, 400 Bad
Request on bad data or on an unknown package base. -/
inductive PostResult where
  | noContent
  | badRequest
deriving DecidableEq

/-- `ahriman.web.views.status.package.PackageView.post`: parse the status
string (any parse failure is a 400), call the watcher's `update`, map its
"unknown package" error to a 400; the registry state is returned alongside
the HTTP outcome. -/
def PackageView.post (state : WatcherState) (package_base : String)
    (statusValue : String) (package : Option Package) (now : Int) :
    PostResult × WatcherState :=
  match BuildStatusEnum.fromValue statusValue with
  | none => (.badRequest, state)
  | some status =>
    match watcherUpdate state package_base status package now with
    | .error _ => (.badRequest, state)
    | .ok next => (.noContent, next)

namespace Handler

/-- `Handler.call`: load the configuration, then acquire the architecture
lock, then run the handler body; `True` only when everything succeeded, and
any exception (configuration, lock acquisition — e.g. an already-running
instance — or the run itself) is caught and turns into `False`.  The three
stages arrive as `Except` oracles standing for the external effects. -/
def call (config : Except String Unit) (lock : Except String Unit)
    (run : Except String Unit) : Bool :=
  match config with
  | .error _ => false
  | .ok _ =>
    match lock with
    | .error _ => false
    | .ok _ =>
      match run with
      | .error _ => false
      | .ok _ => true

/-- `Handler.execute`: on several architectures each one is dispatched to its
own pool worker (`pool.starmap(cls.call, ...)`), on a single architecture
`call` runs inline; the exit status is `0 if all(result) else 1`.  Running
more than one architecture with `ALLOW_MULTI_ARCHITECTURE_RUN` unset raises
`MultipleArchitecture` (`none`), and an empty architecture set would raise
on `set.pop()` (`none`; `extract_architectures` never returns an empty
set). -/
def execute (allowMulti : Bool) (architectures : List String)
    (callResult : String → Bool) : Option Nat :=
  if architectures.length > 1 then
    if !allowMulti then none
    else some (if (architectures.map callResult).all (fun r => r) then 0 else 1)
  else
    match architectures with
    | [] => none
    | arch :: _ => some (if [callResult arch].all (fun r => r) then 0 else 1)

end Handler

/-! ### Concrete fixtures for the scenario claims -/

/-- Package `A`, producing artifact `A`, depending on nothing. -/
def pkgA : Package := ⟨"A", "1-1", [("A", ⟨[], [], none⟩)]⟩

/-- Package `B`, producing artifact `B`, whose recipe depends on `A`. -/
def pkgB : Package := ⟨"B", "1-1", [("B", ⟨["A"], [], none⟩)]⟩

/-- Package `C`, producing artifact `C`, whose recipe depends on `B`. -/
def pkgC : Package := ⟨"C", "1-1", [("C", ⟨["B"], [], none⟩)]⟩

/-- Package `B` in the variant that depends on nothing. -/
def pkgB0 : Package := ⟨"B", "1-1", [("B", ⟨[], [], none⟩)]⟩

/-- Package `C` in the variant that depends on `A` only. -/
def pkgCA : Package := ⟨"C", "1-1", [("C", ⟨["A"], [], none⟩)]⟩

/-- Leaf of `pkgA`: no dependencies. -/
def leafA : Leaf := ⟨pkgA, []⟩

/-- Leaf of `pkgB`: depends on `A`. -/
def leafB : Leaf := ⟨pkgB, ["A"]⟩

/-- Leaf of `pkgC`: depends on `B`. -/
def leafC : Leaf := ⟨pkgC, ["B"]⟩

/-- Leaf of `pkgB0`: no dependencies. -/
def leafB0 : Leaf := ⟨pkgB0, []⟩

/-- Leaf of `pkgCA`: depends on `A`. -/
def leafCA : Leaf := ⟨pkgCA, ["A"]⟩

/-- A remote VCS package (base ends in `-git`) at stored version `2-1`. -/
def remoteGit : Package := ⟨"pkg-git", "2-1", [("pkg-git", ⟨[], [], none⟩)]⟩

/-- The local build of `pkg-git`, built at timestamp 100. -/
def localGitFresh : Package := ⟨"pkg-git", "1-1", [("pkg-git", ⟨[], [], some 100⟩)]⟩

/-- The local build of `pkg-git`, built at timestamp 10. -/
def localGitStale : Package := ⟨"pkg-git", "1-1", [("pkg-git", ⟨[], [], some 10⟩)]⟩

/-- A local non-VCS package at version `1.0-1`. -/
def localPlain : Package := ⟨"package", "1.0-1", [("package", ⟨[], [], none⟩)]⟩

/-- The remote counterpart of `localPlain` at version `1.0-2`. -/
def remotePlain : Package := ⟨"package", "1.0-2", [("package", ⟨[], [], none⟩)]⟩

end Ahriman

namespace Ahriman

/-! ### Helper lemmas about character-level splitting -/

theorem splitFirst_eq_none {c : Char} {l : List Char} (h : c ∉ l) :
    splitFirst c l = none := by
  induction l with
  | nil => rfl
  | cons x xs ih =>
    have hx : ¬(x = c) := by rintro rfl; exact h (List.mem_cons_self x xs)
    have hxs : c ∉ xs := fun hm => h (List.mem_cons_of_mem _ hm)
    simp [splitFirst, hx, ih hxs]

theorem splitFirst_append_cons {c : Char} {l₁ l₂ : List Char} (h : c ∉ l₁) :
    splitFirst c (l₁ ++ c :: l₂) = some (l₁, l₂) := by
  induction l₁ with
  | nil => simp [splitFirst]
  | cons x xs ih =>
    have hx : ¬(x = c) := by rintro rfl; exact h (List.mem_cons_self x xs)
    have hxs : c ∉ xs := fun hm => h (List.mem_cons_of_mem _ hm)
    simp [splitFirst, hx, ih hxs]

theorem rsplitLast_append_cons {c : Char} {l₁ l₂ : List Char} (h : c ∉ l₂) :
    rsplitLast c (l₁ ++ c :: l₂) = some (l₁, l₂) := by
  have hrev : (l₁ ++ c :: l₂).reverse = l₂.reverse ++ c :: l₁.reverse := by
    simp [List.reverse_append, List.append_assoc]
  rw [rsplitLast, hrev, splitFirst_append_cons (by simpa using h)]
  simp

theorem rsplitLast_eq_none {c : Char} {l : List Char} (h : c ∉ l) :
    rsplitLast c l = none := by
  rw [rsplitLast, splitFirst_eq_none (by simpa using h)]
  rfl

/-! ### Helper lemmas about the tree invariant -/

theorem is_dependency_iff (l : Leaf) (L : List Leaf) :
    l.is_dependency L = true ↔ ∃ m ∈ L, DependsOn m l := by
  simp only [Leaf.is_dependency, List.any_eq_true, DependsOn, List.elem_iff]

theorem is_dependency_eq_false_iff (l : Leaf) (L : List Leaf) :
    l.is_dependency L = false ↔ ∀ m ∈ L, ¬ DependsOn m l := by
  rw [← Bool.not_eq_true, is_dependency_iff]
  push_neg
  rfl

theorem is_root_iff (l : Leaf) (L : List Leaf) :
    l.is_root L = true ↔ ∀ m ∈ L, ¬ DependsOn l m := by
  simp only [Leaf.is_root, List.all_eq_true]
  constructor
  · intro h m hm hdep
    obtain ⟨d, hd, hdi⟩ := hdep
    have hne := h m hm
    have hmem : (l.dependencies.any fun d => m.items.contains d) = true :=
      List.any_eq_true.mpr ⟨d, hd, List.elem_iff.mpr hdi⟩
    rw [hmem] at hne
    simp at hne
  · intro h m hm
    rw [Bool.not_eq_true']
    refine List.any_eq_false.mpr fun d hd => ?_
    intro hc
    exact h m hm ⟨d, hd, List.elem_iff.mp hc⟩

theorem is_dependency_append (l : Leaf) (L₁ L₂ : List Leaf) :
    l.is_dependency (L₁ ++ L₂) = (l.is_dependency L₁ || l.is_dependency L₂) := by
  simp [Leaf.is_dependency, List.any_append]

/-! ### Helper lemmas about the code point order -/

theorem charListLt_asymm {a b : List Char} (h : Tree.charListLt a b = true) :
    Tree.charListLt b a = false := by
  induction a generalizing b with
  | nil =>
    cases b with
    | nil => simp [Tree.charListLt] at h
    | cons y ys => rfl
  | cons x xs ih =>
    cases b with
    | nil => simp [Tree.charListLt] at h
    | cons y ys =>
      simp only [Tree.charListLt] at h ⊢
      split_ifs at h ⊢ <;> first | rfl | omega | exact ih h | simp_all

theorem charListLt_trans {a b c : List Char} (h₁ : Tree.charListLt a b = true)
    (h₂ : Tree.charListLt b c = true) : Tree.charListLt a c = true := by
  induction a generalizing b c with
  | nil =>
    cases b with
    | nil => simp [Tree.charListLt] at h₁
    | cons y ys =>
      cases c with
      | nil => simp [Tree.charListLt] at h₂
      | cons z zs => rfl
  | cons x xs ih =>
    cases b with
    | nil => simp [Tree.charListLt] at h₁
    | cons y ys =>
      cases c with
      | nil => simp [Tree.charListLt] at h₂
      | cons z zs =>
        simp only [Tree.charListLt] at h₁ h₂ ⊢
        split_ifs at h₁ h₂ ⊢ <;>
          first | rfl | omega | exact ih h₁ h₂ | simp_all

theorem charListLt_eq_of_not {a b : List Char} (h₁ : Tree.charListLt a b = false)
    (h₂ : Tree.charListLt b a = false) : a = b := by
  induction a generalizing b with
  | nil =>
    cases b with
    | nil => rfl
    | cons y ys => simp [Tree.charListLt] at h₁
  | cons x xs ih =>
    cases b with
    | nil => simp [Tree.charListLt] at h₂
    | cons y ys =>
      simp only [Tree.charListLt] at h₁ h₂
      split_ifs at h₁ h₂ with hc₁ hc₂
      have hnat : x.toNat = y.toNat := by omega
      have hxy : x = y := Char.ext (UInt32.ext hnat)
      rw [hxy, ih h₁ h₂]

instance : IsTotal Package Tree.baseLe where
  total p q := by
    unfold Tree.baseLe
    cases hqp : Tree.charListLt q.base.data p.base.data with
    | false => exact Or.inl rfl
    | true => exact Or.inr (charListLt_asymm hqp)

instance : IsTrans Package Tree.baseLe where
  trans p q r h₁ h₂ := by
    unfold Tree.baseLe at h₁ h₂ ⊢
    cases hrp : Tree.charListLt r.base.data p.base.data with
    | false => rfl
    | true =>
      exfalso
      cases hpq : Tree.charListLt p.base.data q.base.data with
      | true =>
        have hrq := charListLt_trans hrp hpq
        rw [h₂] at hrq
        exact Bool.false_ne_true hrq
      | false =>
        have heq := charListLt_eq_of_not hpq h₁
        rw [heq] at hrp
        rw [h₂] at hrp
        exact Bool.false_ne_true hrp

/-! ### Helper lemmas about the peeling loop -/

theorem peelFuel_flatten_perm : ∀ {fuel : Nat} {u : List Leaf} {L : List (List Leaf)},
    Tree.peelFuel fuel u = some L → L.flatten.Perm u := by
  intro fuel
  induction fuel with
  | zero =>
    intro u L h
    cases u with
    | nil =>
      simp [Tree.peelFuel] at h
      subst h
      exact List.Perm.refl _
    | cons x xs => simp [Tree.peelFuel] at h
  | succ fuel ih =>
    intro u L h
    cases u with
    | nil =>
      simp [Tree.peelFuel] at h
      subst h
      exact List.Perm.refl _
    | cons x xs =>
      rw [Tree.peelFuel] at h
      by_cases hr : (((x :: xs).filter fun leaf => leaf.is_root (x :: xs)).isEmpty = true)
      · rw [if_pos hr] at h
        simp at h
      · rw [if_neg hr] at h
        rcases Option.map_eq_some'.mp h with ⟨rest, hrest, hL⟩
        subst hL
        rw [List.flatten_cons]
        exact (List.Perm.append_left _ (ih hrest)).trans
          (List.filter_append_perm (fun leaf => Leaf.is_root leaf (x :: xs)) (x :: xs))

theorem peelFuel_strat : ∀ {fuel : Nat} {u : List Leaf} {L : List (List Leaf)},
    Tree.peelFuel fuel u = some L → Tree.Strat L := by
  intro fuel
  induction fuel with
  | zero =>
    intro u L h
    cases u with
    | nil =>
      simp [Tree.peelFuel] at h
      subst h
      trivial
    | cons x xs => simp [Tree.peelFuel] at h
  | succ fuel ih =>
    intro u L h
    cases u with
    | nil =>
      simp [Tree.peelFuel] at h
      subst h
      trivial
    | cons x xs =>
      rw [Tree.peelFuel] at h
      by_cases hr : (((x :: xs).filter fun leaf => leaf.is_root (x :: xs)).isEmpty = true)
      · rw [if_pos hr] at h
        simp at h
      · rw [if_neg hr] at h
        rcases Option.map_eq_some'.mp h with ⟨rest, hrest, hL⟩
        subst hL
        refine ⟨?_, ih hrest⟩
        intro p hp q hq
        have hproot : Leaf.is_root p (x :: xs) = true := (List.mem_filter.mp hp).2
        have hall := (is_root_iff p (x :: xs)).mp hproot
        rcases List.mem_append.mp hq with hq | hq
        · exact hall q (List.mem_filter.mp hq).1
        · have hqmem : q ∈ (x :: xs).filter fun leaf => !(leaf.is_root (x :: xs)) :=
            (peelFuel_flatten_perm hrest).mem_iff.mp hq
          exact hall q (List.mem_filter.mp hqmem).1

/-! ### Helper lemmas about the deferral pass -/

theorem movedGo_eq_filter (next : List Leaf) (cur acc : List Leaf)
    (h : ∀ l ∈ cur, ∀ m ∈ acc ++ cur, ¬ DependsOn m l) :
    Tree.movedGo next cur acc = acc ++ cur.filter fun leaf => !(leaf.is_dependency next) := by
  induction cur generalizing acc with
  | nil => simp [Tree.movedGo]
  | cons l ls ih =>
    have haccl : Leaf.is_dependency l acc = false :=
      (is_dependency_eq_false_iff l acc).mpr fun m hm =>
        h l (List.mem_cons_self l ls) m (List.mem_append_left _ hm)
    have happ : Leaf.is_dependency l (next ++ acc) = Leaf.is_dependency l next := by
      rw [is_dependency_append, haccl, Bool.or_false]
    rw [Tree.movedGo, happ]
    cases hdep : Leaf.is_dependency l next with
    | true =>
      rw [if_pos rfl]
      rw [ih acc fun x hx m hm => h x (List.mem_cons_of_mem _ hx) (m := m) (by
        rcases List.mem_append.mp hm with hm | hm
        · exact List.mem_append_left _ hm
        · exact List.mem_append_right _ (List.mem_cons_of_mem _ hm))]
      have hfil : ((l :: ls).filter fun leaf => !(leaf.is_dependency next)) =
          ls.filter fun leaf => !(leaf.is_dependency next) := by
        simp [List.filter_cons, hdep]
      rw [hfil]
    | false =>
      rw [if_neg (by simp)]
      rw [ih (acc ++ [l]) fun x hx m hm => h x (List.mem_cons_of_mem _ hx) (m := m) (by
        rcases List.mem_append.mp hm with hm | hm
        · rcases List.mem_append.mp hm with hm | hm
          · exact List.mem_append_left _ hm
          · rcases List.mem_cons.mp hm with hm | hm
            · exact List.mem_append_right _ (hm ▸ List.mem_cons_self l ls)
            · simp at hm
        · exact List.mem_append_right _ (List.mem_cons_of_mem _ hm))]
      have hfil : ((l :: ls).filter fun leaf => !(leaf.is_dependency next)) =
          l :: ls.filter fun leaf => !(leaf.is_dependency next) := by
        simp [List.filter_cons, hdep]
      rw [hfil, List.append_assoc]
      rfl

theorem strat_intra {level : List Leaf} {rest : List (List Leaf)}
    (h : Tree.Strat (level :: rest)) :
    ∀ l ∈ level, ∀ m ∈ level, ¬ DependsOn m l :=
  fun l hl m hm => h.1 m hm l (List.mem_append_left _ hl)

theorem strat_step {cur next : List Leaf} {rest : List (List Leaf)}
    (h : Tree.Strat (cur :: next :: rest)) :
    Tree.Strat ((next ++ cur.filter fun leaf => !(leaf.is_dependency next)) :: rest) := by
  have hcur := h.1
  have hnext := h.2.1
  have hrest := h.2.2
  refine ⟨?_, hrest⟩
  intro p hp q hq
  have hflat : (next :: rest).flatten = next ++ rest.flatten := List.flatten_cons
  rcases List.mem_append.mp hp with hpn | hpm
  · rcases List.mem_append.mp hq with hqn | hqf
    · rcases List.mem_append.mp hqn with hq1 | hq2
      · exact hnext p hpn q (List.mem_append_left _ hq1)
      · have hq2' := List.mem_filter.mp hq2
        have hfalse : Leaf.is_dependency q next = false := by
          simpa using hq2'.2
        exact (is_dependency_eq_false_iff q next).mp hfalse p hpn
    · exact hnext p hpn q (List.mem_append_right _ hqf)
  · have hpc : p ∈ cur := (List.mem_filter.mp hpm).1
    apply hcur p hpc q
    rw [hflat]
    rcases List.mem_append.mp hq with hqn | hqf
    · rcases List.mem_append.mp hqn with hq1 | hq2
      · exact List.mem_append_right _ (List.mem_append_left _ hq1)
      · exact List.mem_append_left _ (List.mem_filter.mp hq2).1
    · exact List.mem_append_right _ (List.mem_append_right _ hqf)

theorem deferralGo_strat_perm {rest : List (List Leaf)} :
    ∀ {cur : List Leaf}, Tree.Strat (cur :: rest) →
      Tree.Strat (Tree.deferralGo cur rest) ∧
      (Tree.deferralGo cur rest).flatten.Perm (cur ++ rest.flatten) ∧
      Tree.deferralGo cur rest = Tree.deferralSpecGo cur rest := by
  induction rest with
  | nil =>
    intro cur h
    refine ⟨⟨?_, trivial⟩, ?_, rfl⟩
    · intro p hp q hq
      exact h.1 p hp q (by simpa using hq)
    · simp [Tree.deferralGo]
  | cons next rest ih =>
    intro cur h
    have hintra : ∀ l ∈ cur, ∀ m ∈ ([] : List Leaf) ++ cur, ¬ DependsOn m l := by
      simpa using strat_intra h
    have hmoved : Tree.movedGo next cur [] =
        cur.filter fun leaf => !(leaf.is_dependency next) := by
      simpa using movedGo_eq_filter next cur [] hintra
    have hstep := strat_step h
    obtain ⟨ihs, ihp, ihe⟩ := ih hstep
    have hkm := List.filter_append_perm (fun leaf => Leaf.is_dependency leaf next) cur
    refine ⟨?_, ?_, ?_⟩
    · rw [Tree.deferralGo, hmoved]
      refine ⟨?_, ihs⟩
      intro p hp q hq
      have hpc : p ∈ cur := (List.mem_filter.mp hp).1
      apply h.1 p hpc q
      rw [List.flatten_cons]
      rcases List.mem_append.mp hq with hqk | hqf
      · exact List.mem_append_left _ (List.mem_filter.mp hqk).1
      · have hq' := ihp.mem_iff.mp hqf
        rcases List.mem_append.mp hq' with hq' | hq'
        · rcases List.mem_append.mp hq' with hq'' | hq''
          · exact List.mem_append_right _ (List.mem_append_left _ hq'')
          · exact List.mem_append_left _ (List.mem_filter.mp hq'').1
        · exact List.mem_append_right _ (List.mem_append_right _ hq')
    · rw [Tree.deferralGo, hmoved, List.flatten_cons, List.flatten_cons]
      have p1 := List.Perm.append_left
        (cur.filter fun leaf => Leaf.is_dependency leaf next) ihp
      have p2 : (((next ++ cur.filter fun leaf => !(leaf.is_dependency next)))
            ++ rest.flatten).Perm
          ((cur.filter fun leaf => !(leaf.is_dependency next))
            ++ (next ++ rest.flatten)) := by
        rw [List.append_assoc]
        exact List.perm_append_comm_assoc _ _ _
      have p3 := p1.trans (List.Perm.append_left _ p2)
      rw [← List.append_assoc] at p3
      exact p3.trans (List.Perm.append_right _ hkm)
    · rw [Tree.deferralGo, Tree.deferralSpecGo, hmoved, ihe]

theorem strat_filter (p : List Leaf → Bool) {L : List (List Leaf)}
    (h : Tree.Strat L) : Tree.Strat (L.filter p) := by
  induction L with
  | nil => trivial
  | cons level rest ih =>
    have hhead := h.1
    have hrest := h.2
    rw [List.filter_cons]
    cases hp : p level with
    | false =>
      simp only [Bool.false_eq_true, if_false]
      exact ih hrest
    | true =>
      simp only [if_true]
      refine ⟨?_, ih hrest⟩
      intro x hx q hq
      apply hhead x hx q
      rcases List.mem_append.mp hq with hq | hq
      · exact List.mem_append_left _ hq
      · rcases List.mem_flatten.mp hq with ⟨lvl, hlvl, hqlvl⟩
        exact List.mem_append_right _
          (List.mem_flatten.mpr ⟨lvl, (List.mem_filter.mp hlvl).1, hqlvl⟩)

theorem flatten_filter_nonempty {α : Type} (L : List (List α)) :
    (L.filter fun level => !level.isEmpty).flatten = L.flatten := by
  induction L with
  | nil => rfl
  | cons level rest ih =>
    rw [List.filter_cons]
    cases hl : level.isEmpty with
    | true =>
      have : level = [] := List.isEmpty_iff.mp hl
      subst this
      simpa using ih
    | false => simp [ih]

theorem strat_get {L : List (List Leaf)} (h : Tree.Strat L) :
    ∀ i j, ∀ hij : i ≤ j, ∀ hj : j < L.length, ∀ p q : Leaf,
      p ∈ L.get ⟨i, Nat.lt_of_le_of_lt hij hj⟩ → q ∈ L.get ⟨j, hj⟩ →
      ¬ DependsOn p q := by
  induction L with
  | nil =>
    intro i j hij hj
    simp at hj
  | cons level rest ih =>
    intro i j hij hj p q hp hq
    cases i with
    | zero =>
      cases j with
      | zero => exact h.1 p hp q (List.mem_append_left _ hq)
      | succ j' =>
        have hq' : q ∈ rest.flatten := by
          refine List.mem_flatten.mpr ⟨rest.get ⟨j', by simpa using hj⟩, ?_, hq⟩
          exact List.get_mem rest _ _
        exact h.1 p hp q (List.mem_append_right _ hq')
    | succ i' =>
      cases j with
      | zero => omega
      | succ j' =>
        exact ih h.2 i' j' (by omega) (by simpa using hj) p q hp hq

theorem flatten_map_sort_perm (ls : List (List Leaf)) :
    ((ls.map fun level =>
      List.insertionSort Tree.baseLe (level.map Leaf.package)).flatten).Perm
      ((ls.map fun level => level.map Leaf.package).flatten) := by
  induction ls with
  | nil => exact List.Perm.refl _
  | cons level rest ih =>
    simp only [List.map_cons, List.flatten_cons]
    exact List.Perm.append (List.perm_insertionSort _ _) ih

/-! ### Scenario and functional claims -/

/-- Claim C7: for packages `A` (no dependencies), `B` (depending only on
`A`) and `C` (depending only on `B`), `Tree.levels` returns exactly the
three levels `[[A], [B], [C]]` in that order. -/
theorem Tree.levels_chain_scenario :
    Tree.levels [leafA, leafB, leafC] = some [[pkgA], [pkgB], [pkgC]] := by
  decide

/-- Claim C5: a local package at `1.0-1` against a remote at `1.0-2` is
classified outdated, and version order is the epoch/pkgver/pkgrel tuple
order, not lexical string order: `1.10-1` is newer than `1.9-1` by `vercmp`
even though the code point (lexical) order puts `"1.10-1"` strictly before
`"1.9-1"`. -/
theorem Package.is_outdated_tuple_not_lexical :
    Package.is_outdated localPlain remotePlain 1000 0 true "unused" = true ∧
    vercmp "1.10-1" "1.9-1" = 1 ∧
    Tree.charListLt "1.10-1".data "1.9-1".data = true := by
  decide

/-- Claim C2, counterexample: with `A` and `B` both independent and `C`
depending only on `A`, the naive peeling gives levels `[[A, B], [C]]`; `B`
is required by nothing in the next level, yet the deferral pass moves it
into the next level (final levels `[[A], [B, C]]`), while `A` — which *is*
required by `C` — stays.  The claim says a leaf is moved exactly when it is
required by the next level and that leaves not so required stay, which is
the opposite of what `Tree.levels` does. -/
theorem Tree.deferral_moves_unrequired_leaf :
    Tree.peel [leafA, leafB0, leafCA] = some [[leafA, leafB0], [leafCA]] ∧
    Leaf.is_dependency leafB0 [leafCA] = false ∧
    Leaf.is_dependency leafA [leafCA] = true ∧
    Tree.levels [leafA, leafB0, leafCA] = some [[pkgA], [pkgB0, pkgCA]] := by
  decide

/-- Claim C10, counterexample: with `epoch = None`, `pkgver = "1"` and
`pkgrel = "2:3"` — all satisfying the claim's side conditions (`pkgrel` is
only required to avoid `-`) — `full_version` produces `"1-2:3"`, which
`parse_version` splits at the colon into epoch `"1-2"` and remainder `"3"`;
the remainder has no `-`, so the rsplit unpacking raises (`none`) instead of
returning the original triple. -/
theorem parse_version_roundtrip_counterexample :
    parse_version (full_version none "1" "2:3") = none ∧
    parse_version (full_version none "1" "2:3") ≠ some (none, "1", "2:3") := by
  decide

/-- Claim C10, amended: the round trip
`parse_version (full_version epoch pkgver pkgrel) = (epoch, pkgver, pkgrel)`
holds for every epoch that is `None` or a non-empty string without `:`,
every non-empty pkgver containing neither `:` nor `-`, and every non-empty
pkgrel without `-` that — this is the amendment — contains `:` only when an
epoch is present. -/
theorem parse_version_full_version_roundtrip (epoch : Option String)
    (pkgver pkgrel : String)
    (hepoch : epoch.all (fun e => !(e = "") && !(e.data.contains ':')) = true)
    (hver1 : pkgver ≠ "") (hver2 : ':' ∉ pkgver.data) (hver3 : '-' ∉ pkgver.data)
    (hrel1 : pkgrel ≠ "") (hrel2 : '-' ∉ pkgrel.data)
    (hrelc : epoch = none → ':' ∉ pkgrel.data) :
    parse_version (full_version epoch pkgver pkgrel) = some (epoch, pkgver, pkgrel) := by
  match epoch with
  | none =>
    have hdata : (full_version none pkgver pkgrel).data
        = pkgver.data ++ '-' :: pkgrel.data := by
      simp [full_version, String.data_append]
    have hcolon : ':' ∉ pkgver.data ++ '-' :: pkgrel.data := by
      intro hmem
      rcases List.mem_append.mp hmem with hm | hm
      · exact hver2 hm
      · rcases List.mem_cons.mp hm with hm | hm
        · exact absurd hm (by decide)
        · exact hrelc rfl hm
    simp only [parse_version, hdata, splitFirst_eq_none hcolon,
      rsplitLast_append_cons hrel2]
  | some e =>
    have he : ¬(e = "") ∧ ':' ∉ e.data := by
      have := hepoch
      simp [Option.all_some, List.elem_iff] at this
      exact ⟨this.1, this.2⟩
    have hdata : (full_version (some e) pkgver pkgrel).data
        = e.data ++ ':' :: (pkgver.data ++ '-' :: pkgrel.data) := by
      simp [full_version, he.1, String.data_append, List.append_assoc]
    simp only [parse_version, hdata, splitFirst_append_cons he.2,
      rsplitLast_append_cons hrel2]

/-- Witness for claim C10's amended theorem: epoch `2`, pkgver `1.0`,
pkgrel `1`. -/
theorem parse_version_full_version_roundtrip_witness :
    parse_version (full_version (some "2") "1.0" "1") = some (some "2", "1.0", "1") :=
  parse_version_full_version_roundtrip (some "2") "1.0" "1" (by decide) (by decide)
    (by decide) (by decide) (by decide) (by decide) (by intro h; cases h)

/-- Claim C4: for a version-controlled remote package, when the local
package was built more recently than `now - vcs_allowed_age` the stored
remote version string is compared as-is (no recomputation: the oracle
`recomputed` does not appear in the result), and the freshly recomputed
actual version is used only in the complementary case (with
`calculate_version` set, its default). -/
theorem Package.is_outdated_vcs_freshness_window (self remote : Package)
    (now vcs_allowed_age : Int) (calculate_version : Bool) (recomputed : String)
    (hvcs : remote.is_vcs = true) :
    (self.is_newer_than (now - vcs_allowed_age) = true →
      Package.is_outdated self remote now vcs_allowed_age calculate_version recomputed =
        decide (vercmp self.version remote.version < 0)) ∧
    (calculate_version = true →
      self.is_newer_than (now - vcs_allowed_age) = false →
      Package.is_outdated self remote now vcs_allowed_age calculate_version recomputed =
        decide (vercmp self.version recomputed < 0)) := by
  constructor
  · intro hnew
    simp [Package.is_outdated, hnew]
  · intro hcv hnew
    simp [Package.is_outdated, hcv, hnew, Package.actual_version, hvcs]

/-- Witness for claim C4: concrete fresh (built at 100 > 50 − 10) and stale
(built at 10 < 50 − 10) local VCS packages. -/
theorem Package.is_outdated_vcs_freshness_window_witness :
    Package.is_outdated localGitFresh remoteGit 50 10 true "3-1" =
      decide (vercmp localGitFresh.version remoteGit.version < 0) ∧
    Package.is_outdated localGitStale remoteGit 50 10 true "3-1" =
      decide (vercmp localGitStale.version "3-1" < 0) :=
  ⟨(Package.is_outdated_vcs_freshness_window localGitFresh remoteGit 50 10 true "3-1"
      (by decide)).1 (by decide),
   (Package.is_outdated_vcs_freshness_window localGitStale remoteGit 50 10 true "3-1"
      (by decide)).2 rfl (by decide)⟩

/-- Claim C6: a status registry `update` for an unknown package base with no
package data supplied fails with the `UnknownPackage` error, the registry
state is unchanged, and the HTTP surface (`PackageView.post`) maps the error
to a 400 Bad Request with the state still unchanged. -/
theorem watcherUpdate_unknown_package (state : WatcherState) (package_base : String)
    (status : BuildStatusEnum) (statusValue : String) (now : Int)
    (hs : BuildStatusEnum.fromValue statusValue = some status)
    (hunknown : ∀ entry ∈ state, entry.1 ≠ package_base) :
    watcherUpdate state package_base status none now =
      .error (.unknownPackage package_base) ∧
    PackageView.post state package_base statusValue none now = (.badRequest, state) := by
  have hfilter : (state.filter fun entry => entry.1 = package_base) = [] := by
    refine List.filter_eq_nil_iff.mpr fun entry hmem => ?_
    simpa using hunknown entry hmem
  constructor
  · simp [watcherUpdate, hfilter]
  · simp [PackageView.post, hs, watcherUpdate, hfilter]

/-- Witness for claim C6: `update("unknown-base", Success)` on the empty
registry. -/
theorem watcherUpdate_unknown_package_witness :
    watcherUpdate [] "unknown-base" .Success none 0 =
      .error (.unknownPackage "unknown-base") ∧
    PackageView.post [] "unknown-base" "success" none 0 = (.badRequest, []) :=
  watcherUpdate_unknown_package [] "unknown-base" .Success "success" 0 (by decide)
    (by simp)

/-- Claim C9: with multiple architectures each architecture's `call` result
is collected (one worker each) and the process exit status is 0 exactly when
every architecture succeeded, 1 otherwise; a failure to acquire the lock
makes `call` return `False` regardless of the other stages. -/
theorem Handler.execute_all_succeeded (architectures : List String)
    (callResult : String → Bool) (h : architectures ≠ []) :
    (Handler.execute true architectures callResult = some 0 ↔
      ∀ arch ∈ architectures, callResult arch = true) ∧
    (Handler.execute true architectures callResult = some 0 ∨
      Handler.execute true architectures callResult = some 1) ∧
    (∀ config run, Handler.call config (.error "lock held") run = false) := by
  refine ⟨?_, ?_, fun config run => by cases config <;> rfl⟩
  · rcases architectures with _ | ⟨a, rest⟩
    · exact absurd rfl h
    rcases rest with _ | ⟨b, rest⟩ <;> simp [Handler.execute]
  · rcases architectures with _ | ⟨a, rest⟩
    · exact absurd rfl h
    rcases rest with _ | ⟨b, rest⟩
    · simp [Handler.execute]
    · simp only [Handler.execute]
      norm_num
      intro _ _
      by_cases hx : ∀ x ∈ rest, callResult x = true
      · exact Or.inl hx
      · right
        push_neg at hx
        obtain ⟨x, hxmem, hxf⟩ := hx
        exact ⟨x, hxmem, by simpa using hxf⟩

/-- Witness for claim C9: two architectures, both succeeding, exit status
0. -/
theorem Handler.execute_all_succeeded_witness :
    Handler.execute true ["x86_64", "i686"] (fun _ => true) = some 0 :=
  (Handler.execute_all_succeeded ["x86_64", "i686"] (fun _ => true)
    (by decide)).1.mpr (by decide)

/-- Claim C1: leveling validity — in the output of `Tree.levels` (whose
level `i` is the base-sorted package projection of level `i` of
`levelsLeaves`, first conjunct), a leaf placed in an earlier level never
depends on (so in particular never needs an artifact produced only by) a
leaf placed in a strictly later level. -/
theorem Tree.levels_leveling_validity (leaves : List Leaf)
    (ls : List (List Leaf)) (h : Tree.levelsLeaves leaves = some ls) :
    Tree.levels leaves =
      some (ls.map fun level =>
        List.insertionSort Tree.baseLe (level.map Leaf.package)) ∧
    ∀ i j, ∀ hij : i < j, ∀ hj : j < ls.length, ∀ p q : Leaf,
      p ∈ ls.get ⟨i, Nat.lt_trans hij hj⟩ → q ∈ ls.get ⟨j, hj⟩ →
      ¬ DependsOn p q := by
  constructor
  · rw [Tree.levels, h]
    rfl
  · rw [Tree.levelsLeaves] at h
    rcases Option.map_eq_some'.mp h with ⟨u, hu, hls⟩
    have hstratu : Tree.Strat u := peelFuel_strat hu
    have hstratd : Tree.Strat (Tree.deferral u) := by
      cases u with
      | nil => trivial
      | cons level rest => exact (deferralGo_strat_perm hstratu).1
    have hstrat : Tree.Strat ls := by
      rw [← hls]
      exact strat_filter _ hstratd
    intro i j hij hj p q hp hq
    exact strat_get hstrat i j (Nat.le_of_lt hij) hj p q hp hq

/-- Witness for claim C1: in the `A → B → C` chain, the level-0 leaf `A`
does not depend on the level-1 leaf `B`. -/
theorem Tree.levels_leveling_validity_witness : ¬ DependsOn leafA leafB :=
  (Tree.levels_leveling_validity [leafA, leafB, leafC]
    [[leafA], [leafB], [leafC]] (by decide)).2 0 1 (by decide) (by decide)
    leafA leafB (by decide) (by decide)

/-- Claim C2, amended: on every leveling the peeling loop can produce, the
deferral pass moves a leaf to the next level exactly when that leaf is NOT
required by anything already placed in the next level, and the leaves that
are so required stay — the pass coincides with `deferralSpec`, whose step
keeps `cur.filter (is_dependency · next)` and appends
`cur.filter (!is_dependency · next)` to the next level. -/
theorem Tree.deferral_moves_exactly_not_required (leaves : List Leaf)
    (unsorted : List (List Leaf)) (h : Tree.peel leaves = some unsorted) :
    Tree.deferral unsorted = Tree.deferralSpec unsorted := by
  have hstrat : Tree.Strat unsorted := peelFuel_strat h
  cases unsorted with
  | nil => rfl
  | cons level rest =>
    rw [Tree.deferral, Tree.deferralSpec]
    exact (deferralGo_strat_perm hstrat).2.2

/-- Witness for claim C2's amended theorem: the two-level peeling of the
`A`, `B` independent / `C` depends-on-`A` scenario. -/
theorem Tree.deferral_moves_exactly_not_required_witness :
    Tree.deferral [[leafA, leafB0], [leafCA]] =
      Tree.deferralSpec [[leafA, leafB0], [leafCA]] :=
  Tree.deferral_moves_exactly_not_required [leafA, leafB0, leafCA]
    [[leafA, leafB0], [leafCA]] (by decide)

/-- Claim C3: whenever the peeling loop terminates on leaves with pairwise
distinct bases, `Tree.levels` partitions its input — no emitted level is
empty and every input package occurs exactly once across all levels. -/
theorem Tree.levels_partitions_input (leaves : List Leaf)
    (out : List (List Package)) (h : Tree.levels leaves = some out)
    (hnodup : (leaves.map fun leaf => leaf.package.base).Nodup) :
    (∀ level ∈ out, level ≠ []) ∧
    ∀ leaf ∈ leaves, out.flatten.count leaf.package = 1 := by
  rw [Tree.levels] at h
  rcases Option.map_eq_some'.mp h with ⟨ls, hls, hout⟩
  rw [Tree.levelsLeaves] at hls
  rcases Option.map_eq_some'.mp hls with ⟨u, hu, hfil⟩
  have hstratu : Tree.Strat u := peelFuel_strat hu
  have hpermu : u.flatten.Perm leaves := peelFuel_flatten_perm hu
  have hdperm : (Tree.deferral u).flatten.Perm u.flatten := by
    cases u with
    | nil => exact List.Perm.refl _
    | cons level rest =>
      have hperm := (deferralGo_strat_perm hstratu).2.1
      simpa [Tree.deferral, List.flatten_cons] using hperm
  have hlsflat : ls.flatten = (Tree.deferral u).flatten := by
    rw [← hfil]
    exact flatten_filter_nonempty _
  constructor
  · intro level hlevel
    rw [← hout] at hlevel
    rcases List.mem_map.mp hlevel with ⟨lvl, hlvl, rfl⟩
    rw [← hfil] at hlvl
    have hne : lvl ≠ [] := by
      have hmem := (List.mem_filter.mp hlvl).2
      simpa [List.isEmpty_iff] using hmem
    intro hempty
    apply hne
    have hlen : (List.insertionSort Tree.baseLe (lvl.map Leaf.package)).length
        = lvl.length := by
      rw [(List.perm_insertionSort _ _).length_eq, List.length_map]
    rw [hempty] at hlen
    exact List.eq_nil_of_length_eq_zero hlen.symm
  · intro leaf hleaf
    have hperm : out.flatten.Perm (leaves.map Leaf.package) := by
      rw [← hout]
      refine (flatten_map_sort_perm ls).trans ?_
      rw [← List.map_flatten, hlsflat]
      exact (hdperm.trans hpermu).map _
    have hnodupP : (leaves.map Leaf.package).Nodup := by
      apply List.Nodup.of_map Package.base
      simpa [List.map_map, Function.comp] using hnodup
    rw [hperm.count_eq]
    exact List.count_eq_one_of_mem hnodupP (List.mem_map_of_mem _ hleaf)

/-- Witness for claim C3: in the `A → B → C` chain, package `B` occurs
exactly once across the flattened output levels. -/
theorem Tree.levels_partitions_input_witness :
    [[pkgA], [pkgB], [pkgC]].flatten.count pkgB = 1 :=
  (Tree.levels_partitions_input [leafA, leafB, leafC] [[pkgA], [pkgB], [pkgC]]
    (by decide) (by decide)).2 leafB (by decide)

/-- Claim C8: two packages with no dependencies among the set land in one
single level sorted by base, and in general every level `Tree.levels` emits
is sorted in ascending code point order of the package bases. -/
theorem Tree.levels_independent_single_level_sorted :
    Tree.levels [leafA, leafB0] = some [[pkgA, pkgB0]] ∧
    ∀ (leaves : List Leaf) (out : List (List Package)),
      Tree.levels leaves = some out →
      ∀ level ∈ out, List.Sorted Tree.baseLe level := by
  refine ⟨by decide, ?_⟩
  intro leaves out h level hlevel
  rw [Tree.levels] at h
  rcases Option.map_eq_some'.mp h with ⟨ls, _, hout⟩
  rw [← hout] at hlevel
  rcases List.mem_map.mp hlevel with ⟨lvl, _, rfl⟩
  exact List.sorted_insertionSort Tree.baseLe _

/-- Witness for claim C8: the emitted level `[A, B]` is sorted by base. -/
theorem Tree.levels_independent_single_level_sorted_witness :
    List.Sorted Tree.baseLe [pkgA, pkgB0] :=
  Tree.levels_independent_single_level_sorted.2 [leafA, leafB0] [[pkgA, pkgB0]]
    (by decide) [pkgA, pkgB0] (by decide)

end Ahriman
